import Mathlib

/-!
Verification of the pycox survival-analysis loss and label-transform core.

The Python source (`pycox/models/loss.py`, `pycox/preprocessing/label_transforms.py`)
is shallowly embedded here.  Tensors of shape `[n, m]` become functions
`Fin n → Fin m → ℝ` (generic arithmetic parts are polymorphic over a
`LinearOrderedField` so that they can also be evaluated over `ℚ`).
Floating-point arithmetic is idealised as real arithmetic; torch errors
(raised exceptions) are modelled by `Option` results, `none` being the
error outcome.
-/

set_option maxHeartbeats 1000000

namespace CoxRec

/-- Reduction modes accepted by `_reduction` in `loss.py`
(the strings `none`, `mean`, `sum`; any other string raises `ValueError`,
so a valid reduction is exactly an inhabitant of this type). -/
inductive Reduction
  | none
  | mean
  | sum
deriving DecidableEq

/-- The value returned by a reduced loss: a per-sample vector for
reduction `none`, a scalar for `mean` / `sum`. -/
inductive RTensor (α : Type) (n : ℕ)
  | vec (v : Fin n → α)
  | scalar (x : α)

variable {α : Type} [LinearOrderedField α]

/-- Entry of a row at a natural-number position, `0` out of range.
Used to express torch `gather` and cumulative sums uniformly. -/
def entry {m : ℕ} (v : Fin m → α) (a : ℕ) : α :=
  if h : a < m then v ⟨a, h⟩ else 0

/-- Inclusive cumulative sum of a row, gathered at position `j`
(torch `cumsum(1)` followed by `gather(1, j)`). -/
def csum {m : ℕ} (v : Fin m → α) (j : ℕ) : α :=
  ∑ a ∈ Finset.range (j + 1), entry v a

/-- torch `relu`: clamp to non-negative. -/
def relu (x : α) : α := max x 0

/-- Modelled from the spec: `pad_col` from `pycox.models.utils` (that module is
not under `src/`); it appends a zero-valued column at the end of a matrix,
giving the softmax a `K+1`-st "no event within horizon" bucket. -/
def pad_col {n m : ℕ} (M : Fin n → Fin m → α) : Fin n → Fin (m + 1) → α :=
  fun i j => if h : (j : ℕ) < m then M i ⟨j, h⟩ else 0

/-- Row-wise mean (torch `.mean(1)` / `.mean()` over a length-`n` vector). -/
def meanR {n : ℕ} (v : Fin n → α) : α := (∑ i, v i) / n

/-- `_reduction` from `loss.py`, restricted to the three valid modes. -/
def _reduction {n : ℕ} (red : Reduction) (v : Fin n → α) : RTensor α n :=
  match red with
  | .none => .vec v
  | .mean => .scalar (meanR v)
  | .sum => .scalar (∑ i, v i)

/-- Matrix product (torch `matmul`). -/
def matmul {n m p : ℕ} (A : Fin n → Fin m → α) (B : Fin m → Fin p → α) :
    Fin n → Fin p → α :=
  fun i j => ∑ t, A i t * B t j

/-- Matrix transpose (torch `transpose(0, 1)`). -/
def transposeM {n m : ℕ} (A : Fin n → Fin m → α) : Fin m → Fin n → α :=
  fun i j => A j i

/-- Row-wise cumulative-sum matrix (torch `cumsum(1)`). -/
def cumsum_mat {n m : ℕ} (M : Fin n → Fin m → α) : Fin n → Fin m → α :=
  fun i j => csum (M i) (j : ℕ)

lemma relu_of_nonneg {x : α} (h : 0 ≤ x) : relu x = x := max_eq_left h

lemma pad_col_lt {n m : ℕ} (M : Fin n → Fin m → α) (i : Fin n)
    (j : Fin (m + 1)) (h : (j : ℕ) < m) : pad_col M i j = M i ⟨j, h⟩ :=
  dif_pos h

lemma entry_pad_col {n m : ℕ} (M : Fin n → Fin m → α) (i : Fin n) (a : ℕ) :
    entry (pad_col M i) a = entry (M i) a := by
  unfold entry pad_col
  by_cases h : a < m
  · have h1 : a < m + 1 := by omega
    rw [dif_pos h1, dif_pos (show ((⟨a, h1⟩ : Fin (m + 1)) : ℕ) < m from h)]
  · by_cases h1 : a < m + 1
    · rw [dif_pos h1,
        dif_neg (show ¬ ((⟨a, h1⟩ : Fin (m + 1)) : ℕ) < m from h)]
    · rw [dif_neg h1, dif_neg h]

lemma sum_univ_entry {m : ℕ} (v : Fin m → α) :
    (∑ a ∈ Finset.range m, entry v a) = ∑ t, v t := by
  rw [← Fin.sum_univ_eq_sum_range (fun a => entry v a) m]
  apply Finset.sum_congr rfl
  intro t _
  show entry v (t : ℕ) = v t
  unfold entry
  rw [dif_pos t.isLt]

/-- `_diff_cdf_at_time_i` from `loss.py`: cumulative pmf matmul the one-hot
matrix transposed, subtract the broadcast diagonal, transpose back. -/
def _diff_cdf_at_time_i {n m : ℕ} (pmf y : Fin n → Fin m → α) :
    Fin n → Fin n → α :=
  let r := matmul (cumsum_mat pmf) (transposeM y)
  let diag_r : Fin 1 → Fin n → α := fun _ b => r b b
  let r2 : Fin n → Fin n → α :=
    fun a b => matmul (fun (_ : Fin n) (_ : Fin 1) => (1 : α)) diag_r a b - r a b
  transposeM r2

lemma matmul_one_hot {n m : ℕ} (F : Fin n → Fin m → α) (y : Fin n → Fin m → α)
    (T : Fin n → Fin m) (hy : ∀ i j, y i j = if j = T i then 1 else 0)
    (a b : Fin n) : matmul F (transposeM y) a b = F a (T b) := by
  unfold matmul transposeM
  have : ∀ t : Fin m, F a t * y b t = if t = T b then F a t else 0 := by
    intro t
    rw [hy]
    by_cases h : t = T b <;> simp [h]
  calc (∑ t, F a t * y b t) = ∑ t, if t = T b then F a t else 0 := by
        exact Finset.sum_congr rfl (fun t _ => this t)
    _ = F a (T b) := by
        rw [Finset.sum_ite_eq' Finset.univ (T b) (fun t => F a t)]
        simp

/-- C2: for every pmf matrix and one-hot matrix `y` marking bin `T i` for
sample `i`, `_diff_cdf_at_time_i pmf y` is the matrix
`R i j = F i (T i) - F j (T i)` where `F` is the row-wise cumulative sum
of `pmf` (so at any concrete input it matches the direct cumulative-sum
computation). -/
theorem C2_diff_cdf_at_time_i {n m : ℕ} (pmf y : Fin n → Fin m → α)
    (T : Fin n → Fin m) (hy : ∀ i j, y i j = if j = T i then 1 else 0)
    (i j : Fin n) :
    _diff_cdf_at_time_i pmf y i j
      = cumsum_mat pmf i (T i) - cumsum_mat pmf j (T i) := by
  have hr : ∀ a b : Fin n,
      matmul (cumsum_mat pmf) (transposeM y) a b = cumsum_mat pmf a (T b) :=
    matmul_one_hot (cumsum_mat pmf) y T hy
  have key : _diff_cdf_at_time_i pmf y i j
      = (∑ _t : Fin 1, (1 : α) * matmul (cumsum_mat pmf) (transposeM y) i i)
        - matmul (cumsum_mat pmf) (transposeM y) j i := rfl
  rw [key, Fin.sum_univ_one, one_mul, hr, hr]

/-- C2 witness: the spec's concrete two-sample example,
`pmf = [[0.3, 0.7], [0.5, 0.5]]`, `y` one-hot at bins `[1, 0]`. -/
theorem C2_witness :
    (∀ i j : Fin 2, (![![(0 : ℚ), 1], ![1, 0]] : Fin 2 → Fin 2 → ℚ) i j
        = if j = (![1, 0] : Fin 2 → Fin 2) i then 1 else 0) ∧
    (∀ i j : Fin 2,
      _diff_cdf_at_time_i (![![(3 : ℚ)/10, 7/10], ![1/2, 1/2]])
          (![![(0 : ℚ), 1], ![1, 0]]) i j
        = cumsum_mat (![![(3 : ℚ)/10, 7/10], ![1/2, 1/2]]) i
            ((![1, 0] : Fin 2 → Fin 2) i)
          - cumsum_mat (![![(3 : ℚ)/10, 7/10], ![1/2, 1/2]]) j
            ((![1, 0] : Fin 2 → Fin 2) i)) := by
  refine ⟨by decide, fun i j => ?_⟩
  exact C2_diff_cdf_at_time_i (![![(3 : ℚ)/10, 7/10], ![1/2, 1/2]])
    (![![(0 : ℚ), 1], ![1, 0]]) (![1, 0]) (by decide) i j

noncomputable section

/-- `gamma` in `nll_pmf`: the row maximum of the zero-padded `phi` row
(`phi = pad_col(phi); gamma = phi.max(1)[0]`). -/
def nll_gamma {n K : ℕ} (phi : Fin n → Fin K → ℝ) (i : Fin n) : ℝ :=
  Finset.univ.sup' Finset.univ_nonempty (pad_col phi i)

/-- The row `exp(phi - gamma)` over the padded `K+1` columns in `nll_pmf`. -/
def nll_exprow {n K : ℕ} (phi : Fin n → Fin K → ℝ) (i : Fin n) :
    Fin (K + 1) → ℝ :=
  fun t => Real.exp (pad_col phi i t - nll_gamma phi i)

/-- `cumsum` of `nll_pmf` gathered at column `j`
(`phi.sub(gamma).exp().cumsum(1)` then `gather(1, j)`). -/
def nll_cumsum_at {n K : ℕ} (phi : Fin n → Fin K → ℝ) (i : Fin n) (j : ℕ) : ℝ :=
  csum (nll_exprow phi i) j

/-- `sum_` in `nll_pmf`: the last entry `cumsum[:, -1]` of the row-wise
cumulative sum, i.e. the full row sum of `exp(phi - gamma)`. -/
def nll_sum {n K : ℕ} (phi : Fin n → Fin K → ℝ) (i : Fin n) : ℝ :=
  nll_cumsum_at phi i K

/-- Per-sample loss vector of `nll_pmf` (the value before `_reduction`):
`part1 = (phi.gather(idx) - gamma) * events`,
`part2 = -log(relu(sum_) + eps)`,
`part3 = log(relu(sum_ - cumsum.gather(idx)) + eps) * (1 - events)`,
`loss = -(part1 + part2 + part3)`. -/
def nll_pmf_vec {n K : ℕ} (phi : Fin n → Fin K → ℝ) (idx : Fin n → ℕ)
    (events : Fin n → ℝ) (ε : ℝ) : Fin n → ℝ :=
  fun i =>
    let part1 := (entry (pad_col phi i) (idx i) - nll_gamma phi i) * events i;
    let part2 := - Real.log (relu (nll_sum phi i) + ε);
    let part3 := Real.log (relu (nll_sum phi i - nll_cumsum_at phi i (idx i)) + ε)
      * (1 - events i);
    -(part1 + part2 + part3)

/-- `nll_pmf` from `loss.py`.  `none` models a raised error: torch's
`idx_durations.max()` fails on an empty batch, and the function itself
raises `ValueError` when `idx_durations.max() >= phi.shape[1]`. -/
def nll_pmf {n K : ℕ} (phi : Fin n → Fin K → ℝ) (idx : Fin n → ℕ)
    (events : Fin n → ℝ) (red : Reduction) (ε : ℝ) : Option (RTensor ℝ n) :=
  if n = 0 then none
  else if ∃ i, K ≤ idx i then none
  else some (_reduction red (nll_pmf_vec phi idx events ε))

/-- C1: per-sample loss of `nll_pmf`: for an event sample
(`events i = 1`) it is `-(phi[i, idx i] - gamma_i - log(relu(sum_i) + eps))`,
and for a censored sample (`events i = 0`) it is
`-(log(relu(sum_i - cumsum_i[idx i]) + eps) - log(relu(sum_i) + eps))`,
where `gamma_i` is the row max of the zero-padded `phi` row, `cumsum_i` the
cumulative sum of `exp(phi - gamma_i)` over the padded `K+1` columns and
`sum_i` its final entry; subtractions feeding a logarithm are clamped by
`relu` and an `eps` floor is added before every logarithm. -/
theorem C1_nll_pmf_per_sample {n K : ℕ} (phi : Fin n → Fin K → ℝ)
    (idx : Fin n → ℕ) (events : Fin n → ℝ) (ε : ℝ) (i : Fin n)
    (h : idx i < K) :
    (events i = 1 → nll_pmf_vec phi idx events ε i
      = -(phi i ⟨idx i, h⟩ - nll_gamma phi i
          - Real.log (relu (nll_sum phi i) + ε))) ∧
    (events i = 0 → nll_pmf_vec phi idx events ε i
      = -(Real.log (relu (nll_sum phi i - nll_cumsum_at phi i (idx i)) + ε)
          - Real.log (relu (nll_sum phi i) + ε))) := by
  have h1 : idx i < K + 1 := Nat.lt_succ_of_lt h
  have hentry : entry (pad_col phi i) (idx i) = phi i ⟨idx i, h⟩ := by
    rw [entry, dif_pos h1]
    show pad_col phi i ⟨idx i, h1⟩ = phi i ⟨idx i, h⟩
    rw [pad_col, dif_pos (show ((⟨idx i, h1⟩ : Fin (K + 1)) : ℕ) < K from h)]
  have hv : nll_pmf_vec phi idx events ε i
      = -((entry (pad_col phi i) (idx i) - nll_gamma phi i) * events i
        + - Real.log (relu (nll_sum phi i) + ε)
        + Real.log (relu (nll_sum phi i - nll_cumsum_at phi i (idx i)) + ε)
          * (1 - events i)) := rfl
  constructor
  · intro he
    rw [hv, hentry, he]
    ring
  · intro he
    rw [hv, he]
    ring

/-- C1 witness: a concrete one-sample instance with an in-range index. -/
theorem C1_witness :
    (0 : ℕ) < 2 ∧
    (((fun _ : Fin 1 => (1 : ℝ)) 0 = 1 →
      nll_pmf_vec (fun (_ : Fin 1) (_ : Fin 2) => (0 : ℝ)) (fun _ : Fin 1 => 0)
          (fun _ => 1) 1 0
        = -((fun (_ : Fin 1) (_ : Fin 2) => (0 : ℝ)) 0 ⟨0, by decide⟩
            - nll_gamma (fun (_ : Fin 1) (_ : Fin 2) => (0 : ℝ)) 0
            - Real.log (relu (nll_sum (fun (_ : Fin 1) (_ : Fin 2) => (0 : ℝ)) 0) + 1))) ∧
    ((fun _ : Fin 1 => (1 : ℝ)) 0 = 0 →
      nll_pmf_vec (fun (_ : Fin 1) (_ : Fin 2) => (0 : ℝ)) (fun _ : Fin 1 => 0)
          (fun _ => 1) 1 0
        = -(Real.log (relu (nll_sum (fun (_ : Fin 1) (_ : Fin 2) => (0 : ℝ)) 0
              - nll_cumsum_at (fun (_ : Fin 1) (_ : Fin 2) => (0 : ℝ)) 0
                  ((fun _ : Fin 1 => 0) 0)) + 1)
            - Real.log (relu (nll_sum (fun (_ : Fin 1) (_ : Fin 2) => (0 : ℝ)) 0) + 1)))) :=
  ⟨by decide,
   C1_nll_pmf_per_sample (fun (_ : Fin 1) (_ : Fin 2) => (0 : ℝ)) (fun _ => 0)
     (fun _ => 1) 1 0 (by decide)⟩

/-- C4: with a valid reduction mode and a non-empty batch, `nll_pmf` fails
exactly when some duration index is at least `phi.shape[1]`; under the
precondition that every index is below `phi.shape[1]`, no error is raised. -/
theorem C4_nll_pmf_error_iff {n K : ℕ} (phi : Fin n → Fin K → ℝ)
    (idx : Fin n → ℕ) (events : Fin n → ℝ) (red : Reduction) (ε : ℝ)
    (h0 : 0 < n) :
    nll_pmf phi idx events red ε = none ↔ ∃ i, K ≤ idx i := by
  unfold nll_pmf
  rw [if_neg (Nat.pos_iff_ne_zero.mp h0)]
  by_cases h : ∃ i, K ≤ idx i
  · simp [h]
  · simp [h]

/-- C4 witness: a two-sample batch; with the out-of-range index `5` the
error is raised, so the iff instantiates to a true biconditional. -/
theorem C4_witness :
    (0 : ℕ) < 1 ∧
    (nll_pmf (fun (_ : Fin 1) (_ : Fin 2) => (0 : ℝ)) (fun _ : Fin 1 => 5) (fun _ => 1)
        Reduction.mean 1 = none ↔ ∃ i : Fin 1, 2 ≤ (fun _ : Fin 1 => 5) i) :=
  ⟨by decide,
   C4_nll_pmf_error_iff (fun (_ : Fin 1) (_ : Fin 2) => (0 : ℝ)) (fun _ => 5) (fun _ => 1)
     Reduction.mean 1 (by decide)⟩

/-- Row-wise softmax, `softmax(1)` in torch, in ideal real arithmetic:
`exp(x_j) / sum_t exp(x_t)`. -/
def softmax_row {n m : ℕ} (x : Fin n → Fin m → ℝ) (i : Fin n) (j : Fin m) : ℝ :=
  Real.exp (x i j) / ∑ t, Real.exp (x i t)

lemma fin_mul_pos_right {R K : ℕ} (j : Fin (R * K)) : 0 < K := by
  have h1 : 0 < R * K := Nat.lt_of_le_of_lt (Nat.zero_le _) j.isLt
  refine Nat.pos_of_ne_zero (fun hk => ?_)
  rw [hk, Nat.mul_zero] at h1
  exact absurd h1 (by omega)

/-- `phi.view(batch_size, -1)` for a `[batch, R, K]` tensor: flatten the
risk and duration axes, row-major. -/
def flatten2 {n R K : ℕ} (phi : Fin n → Fin R → Fin K → ℝ) :
    Fin n → Fin (R * K) → ℝ :=
  fun i j =>
    phi i ⟨(j : ℕ) / K, (Nat.div_lt_iff_lt_mul (fin_mul_pos_right j)).mpr j.isLt⟩
      ⟨(j : ℕ) % K, Nat.mod_lt _ (fin_mul_pos_right j)⟩

/-- `sm` in `nll_pmf_cr`: `pad_col(phi.view(b, -1)).softmax(1)[:, :-1]`
viewed back as a `[batch, R, K]` tensor. -/
def cr_sm {n R K : ℕ} (phi : Fin n → Fin R → Fin K → ℝ) (i : Fin n)
    (r : Fin R) (k : Fin K) : ℝ :=
  softmax_row (pad_col (flatten2 phi)) i
    ⟨(r : ℕ) * K + (k : ℕ), by
      have hk := k.isLt
      have hr := r.isLt
      calc (r : ℕ) * K + (k : ℕ) < (r : ℕ) * K + K := by omega
        _ = ((r : ℕ) + 1) * K := by ring
        _ ≤ R * K := Nat.mul_le_mul_right K (Nat.succ_le_of_lt hr)
        _ < R * K + 1 := Nat.lt_succ_self _⟩

/-- Python-style advanced-indexing wrap for an integer index into an axis
of size `R` (a `-1` label selects the last risk, as torch wraps negative
index tensors). -/
def idx_wrap (R : ℕ) (e : ℤ) : ℕ := (e % (R : ℤ)).toNat

/-- `events - 1` in `nll_pmf_cr` / `rank_loss_deephit_cr`: the internal
integer event label. -/
def crEventInt {n : ℕ} (events : Fin n → ℕ) (i : Fin n) : ℤ :=
  (events i : ℤ) - 1

/-- `event_01 = (events != -1).float()` in `nll_pmf_cr`: `1` when the
sample is treated as an event, `0` when treated as censored. -/
def crEvent01 {n : ℕ} (events : Fin n → ℕ) (i : Fin n) : ℝ :=
  if crEventInt events i ≠ -1 then 1 else 0

/-- `sm[index, events, idx_durations]` in `nll_pmf_cr`: gather from `cr_sm`
at an integer risk label (wrapped) and a natural duration index; torch's
own failure on an out-of-range duration index is modelled as a total `0`
(the function performs no explicit validation of its own). -/
def cr_sm_at {n R K : ℕ} (phi : Fin n → Fin R → Fin K → ℝ) (i : Fin n)
    (r j : ℕ) : ℝ :=
  if hr : r < R then (if hj : j < K then cr_sm phi i ⟨r, hr⟩ ⟨j, hj⟩ else 0)
  else 0

/-- Per-sample loss vector of `nll_pmf_cr` (the value before `_reduction`):
`part1 = log(relu(sm[i, events, idx]) + eps) * event_01`,
`part2 = log(relu(1 - sm.cumsum(2)[i, :, idx].sum(1)) + eps) * (1 - event_01)`,
`loss = -(part1 + part2)`. -/
def nll_pmf_cr_vec {n R K : ℕ} (phi : Fin n → Fin R → Fin K → ℝ)
    (idx : Fin n → ℕ) (events : Fin n → ℕ) (ε : ℝ) : Fin n → ℝ :=
  fun i =>
    let part1 := Real.log
      (relu (cr_sm_at phi i (idx_wrap R (crEventInt events i)) (idx i)) + ε)
      * crEvent01 events i;
    let part2 := Real.log
      (relu (1 - ∑ r : Fin R, csum (cr_sm phi i r) (idx i)) + ε)
      * (1 - crEvent01 events i);
    -(part1 + part2)

/-- `nll_pmf_cr` from `loss.py`: no explicit raise statement exists in its
body, so the embedded function always returns a value (`some`). -/
def nll_pmf_cr {n R K : ℕ} (phi : Fin n → Fin R → Fin K → ℝ)
    (idx : Fin n → ℕ) (events : Fin n → ℕ) (red : Reduction) (ε : ℝ) :
    Option (RTensor ℝ n) :=
  some (_reduction red (nll_pmf_cr_vec phi idx events ε))

/-- `phi.view(batch, K)` for a single-risk `[batch, 1, K]` tensor. -/
def squeeze1 {n K : ℕ} (phi : Fin n → Fin 1 → Fin K → ℝ) :
    Fin n → Fin K → ℝ :=
  fun i k => phi i 0 k

/-- The unshifted exponential row `exp(pad_col phi)`; proof-layer
abbreviation used to relate `nll_pmf`'s shifted row to `nll_pmf_cr`'s
softmax. -/
def nll_exp0row {n K : ℕ} (phi : Fin n → Fin K → ℝ) (i : Fin n) :
    Fin (K + 1) → ℝ :=
  fun t => Real.exp (pad_col phi i t)

lemma entry_exp0row_nonneg {n K : ℕ} (phi : Fin n → Fin K → ℝ) (i : Fin n)
    (a : ℕ) : 0 ≤ entry (nll_exp0row phi i) a := by
  unfold entry
  split
  · exact (Real.exp_pos _).le
  · exact le_refl 0

lemma entry_exp0row_pos {n K : ℕ} (phi : Fin n → Fin K → ℝ) (i : Fin n)
    (a : ℕ) (h : a < K + 1) : 0 < entry (nll_exp0row phi i) a := by
  unfold entry
  rw [dif_pos h]
  exact Real.exp_pos _

lemma exp0row_sum_pos {n K : ℕ} (phi : Fin n → Fin K → ℝ) (i : Fin n) :
    0 < ∑ t, nll_exp0row phi i t :=
  Finset.sum_pos (fun t _ => Real.exp_pos _) Finset.univ_nonempty

/-- The shifted cumulative sum of `nll_pmf` factors as the unshifted
partial sum times `exp(-gamma)`. -/
lemma nll_cumsum_at_eq {n K : ℕ} (phi : Fin n → Fin K → ℝ) (i : Fin n)
    (j : ℕ) :
    nll_cumsum_at phi i j
      = (∑ a ∈ Finset.range (j + 1), entry (nll_exp0row phi i) a)
        * Real.exp (- nll_gamma phi i) := by
  unfold nll_cumsum_at csum
  rw [Finset.sum_mul]
  apply Finset.sum_congr rfl
  intro a _
  unfold entry
  by_cases h : a < K + 1
  · rw [dif_pos h, dif_pos h]
    unfold nll_exprow nll_exp0row
    rw [sub_eq_add_neg, Real.exp_add]
  · rw [dif_neg h, dif_neg h, zero_mul]

/-- For a single-risk tensor, the zero-padded flattened row coincides with
the zero-padded squeezed row at every in-range position. -/
lemma pad_val_eq {n K : ℕ} (phi : Fin n → Fin 1 → Fin K → ℝ) (i : Fin n)
    (a : ℕ) (h1 : a < 1 * K + 1) (h2 : a < K + 1) :
    pad_col (flatten2 phi) i ⟨a, h1⟩ = pad_col (squeeze1 phi) i ⟨a, h2⟩ := by
  unfold pad_col
  by_cases h : a < K
  · have ha1K : a < 1 * K := by omega
    rw [dif_pos (show ((⟨a, h1⟩ : Fin (1 * K + 1)) : ℕ) < 1 * K from ha1K),
      dif_pos (show ((⟨a, h2⟩ : Fin (K + 1)) : ℕ) < K from h)]
    unfold flatten2 squeeze1
    have h4 : ∀ (u : Fin 1) (v w : Fin K), v = w → phi i u v = phi i 0 w := by
      intro u v w hvw
      rw [hvw, Subsingleton.elim u 0]
    exact h4 _ _ _ (Fin.ext (Nat.mod_eq_of_lt h))
  · have hn1K : ¬ a < 1 * K := by omega
    rw [dif_neg (show ¬ ((⟨a, h1⟩ : Fin (1 * K + 1)) : ℕ) < 1 * K from hn1K),
      dif_neg (show ¬ ((⟨a, h2⟩ : Fin (K + 1)) : ℕ) < K from h)]

lemma pad_flat_at {n K : ℕ} (phi : Fin n → Fin 1 → Fin K → ℝ) (i : Fin n)
    (j : Fin (1 * K + 1)) (h2 : (j : ℕ) < K + 1) :
    pad_col (flatten2 phi) i j = pad_col (squeeze1 phi) i ⟨(j : ℕ), h2⟩ := by
  have h := pad_val_eq phi i (j : ℕ) j.isLt h2
  rwa [Fin.eta] at h

/-- The softmax normaliser of `nll_pmf_cr` with one risk equals the full
unshifted exponential row sum of the squeezed tensor. -/
lemma Zf_eq {n K : ℕ} (phi : Fin n → Fin 1 → Fin K → ℝ) (i : Fin n) :
    (∑ t, Real.exp (pad_col (flatten2 phi) i t))
      = ∑ t, nll_exp0row (squeeze1 phi) i t := by
  rw [← sum_univ_entry (fun t => Real.exp (pad_col (flatten2 phi) i t)),
    ← sum_univ_entry (nll_exp0row (squeeze1 phi) i)]
  have h1 : 1 * K + 1 = K + 1 := by omega
  apply Finset.sum_congr (congrArg Finset.range h1)
  intro a ha
  have ha2 : a < K + 1 := Finset.mem_range.mp ha
  have ha1 : a < 1 * K + 1 := by omega
  unfold entry
  rw [dif_pos ha1, dif_pos ha2]
  exact congrArg Real.exp (pad_val_eq phi i a ha1 ha2)

/-- Value of the single-risk `sm` entry: the cr softmax entry at column `k`
is the unshifted exponential over the full normaliser. -/
lemma cr_sm_val {n K : ℕ} (phi : Fin n → Fin 1 → Fin K → ℝ) (i : Fin n)
    (r : Fin 1) (k : Fin K) :
    cr_sm phi i r k
      = entry (nll_exp0row (squeeze1 phi) i) (k : ℕ)
        / ∑ t, nll_exp0row (squeeze1 phi) i t := by
  unfold cr_sm softmax_row
  rw [Zf_eq]
  congr 1
  have hrv : (r : ℕ) = 0 := by omega
  have hvv : (r : ℕ) * K + (k : ℕ) = (k : ℕ) := by
    rw [hrv, Nat.zero_mul, Nat.zero_add]
  have h2 : ((r : ℕ) * K + (k : ℕ)) < K + 1 := by
    rw [hvv]
    exact Nat.lt_succ_of_lt k.isLt
  rw [pad_flat_at phi i _ h2]
  have hk1 : (k : ℕ) < K + 1 := Nat.lt_succ_of_lt k.isLt
  unfold entry nll_exp0row
  rw [dif_pos hk1]
  exact congrArg Real.exp (congrArg (pad_col (squeeze1 phi) i) (Fin.ext hvv))

/-- Sum over the one risk of the gathered softmax cumulative sum, as a
partial sum of the unshifted exponential row over the normaliser. -/
lemma cr_csum_sum {n K : ℕ} (phi : Fin n → Fin 1 → Fin K → ℝ) (i : Fin n)
    (j : ℕ) (hj : j < K) :
    (∑ r : Fin 1, csum (cr_sm phi i r) j)
      = (∑ a ∈ Finset.range (j + 1), entry (nll_exp0row (squeeze1 phi) i) a)
        / ∑ t, nll_exp0row (squeeze1 phi) i t := by
  rw [Fin.sum_univ_one]
  unfold csum
  rw [Finset.sum_div]
  apply Finset.sum_congr rfl
  intro a ha
  have haK : a < K := by
    have := Finset.mem_range.mp ha
    omega
  have h1 : entry (cr_sm phi i 0) a = cr_sm phi i 0 ⟨a, haK⟩ := by
    unfold entry
    rw [dif_pos haK]
  rw [h1, cr_sm_val]

/-- `nll_pmf` per-sample value for an event sample, in closed log form. -/
lemma nll_vec_event_val {n K : ℕ} (phi2 : Fin n → Fin K → ℝ)
    (idx : Fin n → ℕ) (ev : Fin n → ℝ) (i : Fin n)
    (hidx : idx i < K) (he : ev i = 1) :
    nll_pmf_vec phi2 idx ev 0 i
      = -(Real.log (entry (nll_exp0row phi2 i) (idx i))
          - Real.log (∑ t, nll_exp0row phi2 i t)) := by
  have hZpos : 0 < ∑ t, nll_exp0row phi2 i t := exp0row_sum_pos phi2 i
  have hv : nll_pmf_vec phi2 idx ev 0 i
      = -((entry (pad_col phi2 i) (idx i) - nll_gamma phi2 i) * ev i
          + - Real.log (relu (nll_sum phi2 i) + 0)
          + Real.log (relu (nll_sum phi2 i - nll_cumsum_at phi2 i (idx i)) + 0)
            * (1 - ev i)) := rfl
  rw [hv, he]
  have hsum : nll_sum phi2 i
      = (∑ t, nll_exp0row phi2 i t) * Real.exp (- nll_gamma phi2 i) := by
    unfold nll_sum
    rw [nll_cumsum_at_eq, sum_univ_entry]
  have hsump : 0 < nll_sum phi2 i := by
    rw [hsum]
    exact mul_pos hZpos (Real.exp_pos _)
  rw [relu_of_nonneg hsump.le]
  have hlog : Real.log (nll_sum phi2 i)
      = Real.log (∑ t, nll_exp0row phi2 i t) - nll_gamma phi2 i := by
    rw [hsum, Real.log_mul hZpos.ne' (Real.exp_ne_zero _), Real.log_exp]
    ring
  have hent : entry (pad_col phi2 i) (idx i)
      = Real.log (entry (nll_exp0row phi2 i) (idx i)) := by
    have h1 : idx i < K + 1 := by omega
    unfold entry nll_exp0row
    rw [dif_pos h1, dif_pos h1, Real.log_exp]
  rw [add_zero, hlog, hent]
  ring

/-- `nll_pmf` per-sample value for a censored sample, in closed log form. -/
lemma nll_vec_censored_val {n K : ℕ} (phi2 : Fin n → Fin K → ℝ)
    (idx : Fin n → ℕ) (ev : Fin n → ℝ) (i : Fin n)
    (hidx : idx i < K) (he : ev i = 0) :
    nll_pmf_vec phi2 idx ev 0 i
      = -(Real.log ((∑ t, nll_exp0row phi2 i t)
            - ∑ a ∈ Finset.range (idx i + 1), entry (nll_exp0row phi2 i) a)
          - Real.log (∑ t, nll_exp0row phi2 i t)) := by
  have hZpos : 0 < ∑ t, nll_exp0row phi2 i t := exp0row_sum_pos phi2 i
  have hZr : (∑ a ∈ Finset.range (K + 1), entry (nll_exp0row phi2 i) a)
      = ∑ t, nll_exp0row phi2 i t := sum_univ_entry _
  have htail : (∑ a ∈ Finset.Ico (idx i + 1) (K + 1), entry (nll_exp0row phi2 i) a)
      = (∑ t, nll_exp0row phi2 i t)
        - ∑ a ∈ Finset.range (idx i + 1), entry (nll_exp0row phi2 i) a := by
    rw [Finset.sum_Ico_eq_sub _ (by omega), hZr]
  have htp : 0 < (∑ t, nll_exp0row phi2 i t)
      - ∑ a ∈ Finset.range (idx i + 1), entry (nll_exp0row phi2 i) a := by
    rw [← htail]
    refine Finset.sum_pos' (fun a _ => entry_exp0row_nonneg _ _ _) ⟨K, ?_, ?_⟩
    · exact Finset.mem_Ico.mpr ⟨by omega, by omega⟩
    · exact entry_exp0row_pos _ _ K (by omega)
  have hv : nll_pmf_vec phi2 idx ev 0 i
      = -((entry (pad_col phi2 i) (idx i) - nll_gamma phi2 i) * ev i
          + - Real.log (relu (nll_sum phi2 i) + 0)
          + Real.log (relu (nll_sum phi2 i - nll_cumsum_at phi2 i (idx i)) + 0)
            * (1 - ev i)) := rfl
  rw [hv, he]
  have hsum : nll_sum phi2 i
      = (∑ t, nll_exp0row phi2 i t) * Real.exp (- nll_gamma phi2 i) := by
    unfold nll_sum
    rw [nll_cumsum_at_eq, sum_univ_entry]
  have hsump : 0 < nll_sum phi2 i := by
    rw [hsum]
    exact mul_pos hZpos (Real.exp_pos _)
  have hdiff : nll_sum phi2 i - nll_cumsum_at phi2 i (idx i)
      = ((∑ t, nll_exp0row phi2 i t)
          - ∑ a ∈ Finset.range (idx i + 1), entry (nll_exp0row phi2 i) a)
        * Real.exp (- nll_gamma phi2 i) := by
    rw [hsum, nll_cumsum_at_eq]
    ring
  have hdp : 0 < nll_sum phi2 i - nll_cumsum_at phi2 i (idx i) := by
    rw [hdiff]
    exact mul_pos htp (Real.exp_pos _)
  rw [relu_of_nonneg hsump.le, relu_of_nonneg hdp.le, add_zero, add_zero]
  have hlog1 : Real.log (nll_sum phi2 i)
      = Real.log (∑ t, nll_exp0row phi2 i t) - nll_gamma phi2 i := by
    rw [hsum, Real.log_mul hZpos.ne' (Real.exp_ne_zero _), Real.log_exp]
    ring
  have hlog2 : Real.log (nll_sum phi2 i - nll_cumsum_at phi2 i (idx i))
      = Real.log ((∑ t, nll_exp0row phi2 i t)
          - ∑ a ∈ Finset.range (idx i + 1), entry (nll_exp0row phi2 i) a)
        - nll_gamma phi2 i := by
    rw [hdiff, Real.log_mul htp.ne' (Real.exp_ne_zero _), Real.log_exp]
    ring
  rw [hlog1, hlog2]
  ring

/-- `nll_pmf_cr` per-sample value for an event sample (one risk), in the
same closed log form as `nll_vec_event_val`. -/
lemma cr_vec_event_val {n K : ℕ} (phi : Fin n → Fin 1 → Fin K → ℝ)
    (idx : Fin n → ℕ) (events : Fin n → ℕ) (i : Fin n)
    (hidx : idx i < K) (he : events i = 1) :
    nll_pmf_cr_vec phi idx events 0 i
      = -(Real.log (entry (nll_exp0row (squeeze1 phi) i) (idx i))
          - Real.log (∑ t, nll_exp0row (squeeze1 phi) i t)) := by
  have hZpos : 0 < ∑ t, nll_exp0row (squeeze1 phi) i t :=
    exp0row_sum_pos (squeeze1 phi) i
  have hcr : nll_pmf_cr_vec phi idx events 0 i
      = -(Real.log (relu (cr_sm_at phi i
              (idx_wrap 1 (crEventInt events i)) (idx i)) + 0)
            * crEvent01 events i
          + Real.log (relu (1 - ∑ r : Fin 1, csum (cr_sm phi i r) (idx i)) + 0)
            * (1 - crEvent01 events i)) := rfl
  have hint : crEventInt events i = 0 := by
    simp [crEventInt, he]
  have he01 : crEvent01 events i = 1 := by
    unfold crEvent01
    rw [hint]
    norm_num
  have hwrap : idx_wrap 1 (crEventInt events i) = 0 := by
    rw [hint]
    rfl
  have hat : cr_sm_at phi i 0 (idx i)
      = cr_sm phi i ⟨0, Nat.one_pos⟩ ⟨idx i, hidx⟩ := by
    unfold cr_sm_at
    rw [dif_pos Nat.one_pos, dif_pos hidx]
  rw [hcr, he01, hwrap, hat, cr_sm_val]
  have hep : 0 < entry (nll_exp0row (squeeze1 phi) i) (idx i) :=
    entry_exp0row_pos _ _ _ (by omega)
  have hq : 0 < entry (nll_exp0row (squeeze1 phi) i)
      ((⟨idx i, hidx⟩ : Fin K) : ℕ) / ∑ t, nll_exp0row (squeeze1 phi) i t :=
    div_pos (entry_exp0row_pos _ _ _ (by omega)) hZpos
  rw [relu_of_nonneg hq.le, add_zero, Real.log_div (by
      exact (entry_exp0row_pos _ _ ((⟨idx i, hidx⟩ : Fin K) : ℕ) (by omega)).ne')
    hZpos.ne']
  ring

/-- `nll_pmf_cr` per-sample value for a censored sample (one risk), in the
same closed log form as `nll_vec_censored_val`. -/
lemma cr_vec_censored_val {n K : ℕ} (phi : Fin n → Fin 1 → Fin K → ℝ)
    (idx : Fin n → ℕ) (events : Fin n → ℕ) (i : Fin n)
    (hidx : idx i < K) (he : events i = 0) :
    nll_pmf_cr_vec phi idx events 0 i
      = -(Real.log ((∑ t, nll_exp0row (squeeze1 phi) i t)
            - ∑ a ∈ Finset.range (idx i + 1),
                entry (nll_exp0row (squeeze1 phi) i) a)
          - Real.log (∑ t, nll_exp0row (squeeze1 phi) i t)) := by
  have hZpos : 0 < ∑ t, nll_exp0row (squeeze1 phi) i t :=
    exp0row_sum_pos (squeeze1 phi) i
  have hZr : (∑ a ∈ Finset.range (K + 1), entry (nll_exp0row (squeeze1 phi) i) a)
      = ∑ t, nll_exp0row (squeeze1 phi) i t := sum_univ_entry _
  have htail : (∑ a ∈ Finset.Ico (idx i + 1) (K + 1),
        entry (nll_exp0row (squeeze1 phi) i) a)
      = (∑ t, nll_exp0row (squeeze1 phi) i t)
        - ∑ a ∈ Finset.range (idx i + 1),
            entry (nll_exp0row (squeeze1 phi) i) a := by
    rw [Finset.sum_Ico_eq_sub _ (by omega), hZr]
  have htp : 0 < (∑ t, nll_exp0row (squeeze1 phi) i t)
      - ∑ a ∈ Finset.range (idx i + 1),
          entry (nll_exp0row (squeeze1 phi) i) a := by
    rw [← htail]
    refine Finset.sum_pos' (fun a _ => entry_exp0row_nonneg _ _ _) ⟨K, ?_, ?_⟩
    · exact Finset.mem_Ico.mpr ⟨by omega, by omega⟩
    · exact entry_exp0row_pos _ _ K (by omega)
  have hcr : nll_pmf_cr_vec phi idx events 0 i
      = -(Real.log (relu (cr_sm_at phi i
              (idx_wrap 1 (crEventInt events i)) (idx i)) + 0)
            * crEvent01 events i
          + Real.log (relu (1 - ∑ r : Fin 1, csum (cr_sm phi i r) (idx i)) + 0)
            * (1 - crEvent01 events i)) := rfl
  have hint : crEventInt events i = -1 := by
    simp [crEventInt, he]
  have he01 : crEvent01 events i = 0 := by
    unfold crEvent01
    rw [hint]
    norm_num
  rw [hcr, he01, cr_csum_sum phi i (idx i) hidx]
  have h1 : (1 : ℝ)
      - (∑ a ∈ Finset.range (idx i + 1), entry (nll_exp0row (squeeze1 phi) i) a)
        / ∑ t, nll_exp0row (squeeze1 phi) i t
      = ((∑ t, nll_exp0row (squeeze1 phi) i t)
          - ∑ a ∈ Finset.range (idx i + 1),
              entry (nll_exp0row (squeeze1 phi) i) a)
        / ∑ t, nll_exp0row (squeeze1 phi) i t := by
    field_simp
  rw [h1]
  have hq : 0 < ((∑ t, nll_exp0row (squeeze1 phi) i t)
      - ∑ a ∈ Finset.range (idx i + 1),
          entry (nll_exp0row (squeeze1 phi) i) a)
      / ∑ t, nll_exp0row (squeeze1 phi) i t := div_pos htp hZpos
  rw [relu_of_nonneg hq.le, add_zero, add_zero, Real.log_div htp.ne' hZpos.ne']
  ring

/-- C3: with a single risk (`phi` of shape `[batch, 1, K]`), labels in
`{0, 1}` and in-range duration indices, `nll_pmf_cr` agrees with `nll_pmf`
on the reshaped `[batch, K]` input for every reduction mode (exact equality
in the idealised real arithmetic, with the epsilon floor set to `0`). -/
theorem C3_nll_pmf_cr_reduces_to_nll_pmf {n K : ℕ}
    (phi : Fin n → Fin 1 → Fin K → ℝ) (idx : Fin n → ℕ)
    (events : Fin n → ℕ) (red : Reduction) (h0 : 0 < n)
    (hidx : ∀ i, idx i < K) (hev : ∀ i, events i = 0 ∨ events i = 1) :
    nll_pmf_cr phi idx events red 0
      = nll_pmf (squeeze1 phi) idx (fun a => (events a : ℝ)) red 0 := by
  have hvec : nll_pmf_cr_vec phi idx events 0
      = nll_pmf_vec (squeeze1 phi) idx (fun a => (events a : ℝ)) 0 := by
    funext i
    rcases hev i with he | he
    · rw [cr_vec_censored_val phi idx events i (hidx i) he,
        nll_vec_censored_val (squeeze1 phi) idx _ i (hidx i) (by simp [he])]
    · rw [cr_vec_event_val phi idx events i (hidx i) he,
        nll_vec_event_val (squeeze1 phi) idx _ i (hidx i) (by simp [he])]
  unfold nll_pmf nll_pmf_cr
  rw [if_neg (by omega : ¬ n = 0),
    if_neg (show ¬ ∃ i, K ≤ idx i from fun hc => by
      rcases hc with ⟨i, hi⟩
      have := hidx i
      omega)]
  rw [hvec]

/-- C3 witness: one sample, one risk, one duration bin, an event label. -/
theorem C3_witness :
    ((0 : ℕ) < 1 ∧ (∀ i : Fin 1, (fun _ : Fin 1 => 0) i < 1)
      ∧ (∀ i : Fin 1, (fun _ : Fin 1 => 1) i = 0 ∨ (fun _ : Fin 1 => 1) i = 1)) ∧
    nll_pmf_cr (fun (_ : Fin 1) (_ : Fin 1) (_ : Fin 1) => (0 : ℝ))
        (fun _ => 0) (fun _ => 1) Reduction.mean 0
      = nll_pmf (squeeze1 (fun (_ : Fin 1) (_ : Fin 1) (_ : Fin 1) => (0 : ℝ)))
          (fun _ => 0) (fun a => (((fun _ : Fin 1 => 1) a : ℕ) : ℝ))
          Reduction.mean 0 :=
  ⟨⟨by decide, fun _ => Nat.zero_lt_one, fun _ => Or.inr rfl⟩,
   C3_nll_pmf_cr_reduces_to_nll_pmf (fun _ _ _ => (0 : ℝ)) (fun _ => 0)
     (fun _ => 1) Reduction.mean (by decide) (fun _ => Nat.zero_lt_one)
     (fun _ => Or.inr rfl)⟩

/-- C5 counterexample: for the event label `1` (first risk), the internal
label `events - 1` is `0`, yet the sample is not treated as censored
(`event_01 = 1`), refuting "treated as censored exactly when the internal
label is 0". -/
theorem C5_counterexample :
    ¬ ((crEvent01 (![1] : Fin 1 → ℕ) 0 = 0) ↔
       (crEventInt (![1] : Fin 1 → ℕ) 0 = 0)) := by
  intro h
  have h1 : crEventInt (![1] : Fin 1 → ℕ) 0 = 0 := by decide
  have h2 : crEvent01 (![1] : Fin 1 → ℕ) 0 = 1 := by
    rw [crEvent01, if_pos]
    rw [h1]
    decide
  rw [h2] at h
  exact one_ne_zero (h.mpr h1)

/-- C5 (amended): in `nll_pmf_cr` the event-type labels are remapped by
subtracting 1 (`events - 1`), so that the value `-1` denotes a censored
sample internally; a sample is treated as censored (its `event_01`
multiplier is `0`) exactly when its internal label is `-1`, equivalently
when its original label is `0`. -/
theorem C5_event_remap {n : ℕ} (events : Fin n → ℕ) (i : Fin n) :
    crEventInt events i = (events i : ℤ) - 1 ∧
    (crEvent01 events i = 0 ↔ crEventInt events i = -1) ∧
    (crEventInt events i = -1 ↔ events i = 0) := by
  refine ⟨rfl, ?_, ?_⟩
  · rw [crEvent01]
    by_cases h : crEventInt events i = -1
    · simp [h]
    · simp [h]
  · rw [crEventInt]
    omega

/-- C10: `nll_pmf_cr` performs no validation of `idx_durations` against the
duration dimension: even when some index is at least `K` it raises no
explicit index-range error of its own (it returns a value), while `nll_pmf`
on the same indices fails. -/
theorem C10_nll_pmf_cr_no_check {n R K : ℕ} (phi : Fin n → Fin R → Fin K → ℝ)
    (idx : Fin n → ℕ) (events : Fin n → ℕ) (red : Reduction) (ε : ℝ)
    (h : ∃ i, K ≤ idx i) :
    (nll_pmf_cr phi idx events red ε).isSome = true ∧
    (∀ (phi2 : Fin n → Fin K → ℝ) (events2 : Fin n → ℝ),
      nll_pmf phi2 idx events2 red ε = none) := by
  constructor
  · rfl
  · intro phi2 events2
    unfold nll_pmf
    rcases h with ⟨i, hi⟩
    have hn : ¬ (n = 0) := by
      intro h0
      have := i.isLt
      omega
    rw [if_neg hn, if_pos ⟨i, hi⟩]

/-- `_rank_loss_deephit` from `loss.py`, before its `_reduction`:
`loss = rank_mat * exp(-r / sigma)` with `r = _diff_cdf_at_time_i(pmf, y)`,
then `loss.mean(1)` (the per-sample mean over the comparison axis). -/
def _rank_loss_deephit {n m : ℕ} (pmf y : Fin n → Fin m → ℝ)
    (rank_mat : Fin n → Fin n → ℝ) (σ : ℝ) : Fin n → ℝ :=
  fun i => meanR (fun j =>
    rank_mat i j * Real.exp (-(_diff_cdf_at_time_i pmf y i j) / σ))

/-- `rank_loss_deephit_single` from `loss.py`: softmax over the padded
horizon, one-hot `y` from `idx_durations` (torch `scatter`), then the
reduced rank loss. -/
def rank_loss_deephit_single {n K : ℕ} (phi : Fin n → Fin K → ℝ)
    (idx : Fin n → ℕ) (events : Fin n → ℝ) (rank_mat : Fin n → Fin n → ℝ)
    (σ : ℝ) (red : Reduction) : RTensor ℝ n :=
  _reduction red
    (_rank_loss_deephit (softmax_row (pad_col phi))
      (fun i j => if (j : ℕ) = idx i then 1 else 0) rank_mat σ)

/-- `rank_loss_deephit_cr` from `loss.py`: per-risk rank losses masked to
the samples observed with that risk, then combined per the reduction mode
(elementwise sum for `none`, sum of per-risk means for `mean`, sum of
per-risk sums for `sum`). -/
def rank_loss_deephit_cr {n R K : ℕ} (phi : Fin n → Fin R → Fin K → ℝ)
    (idx : Fin n → ℕ) (events : Fin n → ℕ) (rank_mat : Fin n → Fin n → ℝ)
    (σ : ℝ) (red : Reduction) : RTensor ℝ n :=
  let lossR : Fin R → Fin n → ℝ := fun r i =>
    _rank_loss_deephit (fun a b => cr_sm phi a r b)
      (fun a b => if (b : ℕ) = idx a then 1 else 0) rank_mat σ i
      * (if crEventInt events i = ((r : ℕ) : ℤ) then 1 else 0);
  match red with
  | .none => .vec (fun i => ∑ r, lossR r i)
  | .mean => .scalar (∑ r, meanR (lossR r))
  | .sum => .scalar (∑ r, ∑ i, lossR r i)

/-- C8: for each loss function of the module and valid inputs, the
reduction modes are mutually consistent: whenever the `none` reduction
yields the per-sample vector `v`, the `sum` reduction yields `sum v` and
the `mean` reduction yields `mean v`. -/
theorem C8_reduction_consistency {n K R : ℕ}
    (phi1 : Fin n → Fin K → ℝ) (phiC : Fin n → Fin R → Fin K → ℝ)
    (idx : Fin n → ℕ) (evF : Fin n → ℝ) (evN : Fin n → ℕ)
    (rank_mat : Fin n → Fin n → ℝ) (σ ε : ℝ)
    (h0 : 0 < n) (hidx : ∀ i, idx i < K) :
    (∀ v, nll_pmf phi1 idx evF Reduction.none ε = some (.vec v) →
       nll_pmf phi1 idx evF Reduction.sum ε = some (.scalar (∑ i, v i))
       ∧ nll_pmf phi1 idx evF Reduction.mean ε = some (.scalar (meanR v)))
  ∧ (∀ v, nll_pmf_cr phiC idx evN Reduction.none ε = some (.vec v) →
       nll_pmf_cr phiC idx evN Reduction.sum ε = some (.scalar (∑ i, v i))
       ∧ nll_pmf_cr phiC idx evN Reduction.mean ε = some (.scalar (meanR v)))
  ∧ (∀ v, rank_loss_deephit_single phi1 idx evF rank_mat σ Reduction.none
        = .vec v →
       rank_loss_deephit_single phi1 idx evF rank_mat σ Reduction.sum
        = .scalar (∑ i, v i)
       ∧ rank_loss_deephit_single phi1 idx evF rank_mat σ Reduction.mean
        = .scalar (meanR v))
  ∧ (∀ v, rank_loss_deephit_cr phiC idx evN rank_mat σ Reduction.none
        = .vec v →
       rank_loss_deephit_cr phiC idx evN rank_mat σ Reduction.sum
        = .scalar (∑ i, v i)
       ∧ rank_loss_deephit_cr phiC idx evN rank_mat σ Reduction.mean
        = .scalar (meanR v)) := by
  have hnz : ¬ n = 0 := by omega
  have hex : ¬ ∃ i, K ≤ idx i := by
    intro hc
    rcases hc with ⟨i, hi⟩
    have := hidx i
    omega
  refine ⟨?_, ?_, ?_, ?_⟩
  · intro v hv
    have hnone : nll_pmf phi1 idx evF Reduction.none ε
        = some (.vec (nll_pmf_vec phi1 idx evF ε)) := by
      unfold nll_pmf
      rw [if_neg hnz, if_neg hex]
      rfl
    rw [hnone] at hv
    have h3 : nll_pmf_vec phi1 idx evF ε = v := by
      injection Option.some.inj hv
    constructor
    · unfold nll_pmf
      rw [if_neg hnz, if_neg hex, ← h3]
      rfl
    · unfold nll_pmf
      rw [if_neg hnz, if_neg hex, ← h3]
      rfl
  · intro v hv
    have h3 : nll_pmf_cr_vec phiC idx evN ε = v := by
      injection Option.some.inj hv
    constructor
    · unfold nll_pmf_cr
      rw [← h3]
      rfl
    · unfold nll_pmf_cr
      rw [← h3]
      rfl
  · intro v hv
    have h3 : _rank_loss_deephit (softmax_row (pad_col phi1))
        (fun i j => if (j : ℕ) = idx i then 1 else 0) rank_mat σ = v := by
      injection hv
    constructor
    · unfold rank_loss_deephit_single
      rw [← h3]
      rfl
    · unfold rank_loss_deephit_single
      rw [← h3]
      rfl
  · intro v hv
    have h3 : (fun i => ∑ r, _rank_loss_deephit (fun a b => cr_sm phiC a r b)
        (fun a b => if (b : ℕ) = idx a then 1 else 0) rank_mat σ i
        * (if crEventInt evN i = ((r : ℕ) : ℤ) then 1 else 0)) = v := by
      injection hv
    constructor
    · show RTensor.scalar (∑ r, ∑ i, _rank_loss_deephit
          (fun a b => cr_sm phiC a r b)
          (fun a b => if (b : ℕ) = idx a then 1 else 0) rank_mat σ i
          * (if crEventInt evN i = ((r : ℕ) : ℤ) then 1 else 0))
        = RTensor.scalar (∑ i, v i)
      rw [← h3, Finset.sum_comm]
    · show RTensor.scalar (∑ r, meanR (fun i => _rank_loss_deephit
          (fun a b => cr_sm phiC a r b)
          (fun a b => if (b : ℕ) = idx a then 1 else 0) rank_mat σ i
          * (if crEventInt evN i = ((r : ℕ) : ℤ) then 1 else 0)))
        = RTensor.scalar (meanR v)
      rw [← h3]
      unfold meanR
      rw [← Finset.sum_div, Finset.sum_comm]

/-- C8 witness: concrete one-sample inputs; the `none` outputs are the
stated vectors by computation, so all three conjuncts instantiate. -/
theorem C8_witness :
    ((0 : ℕ) < 1 ∧ (∀ i : Fin 1, (fun _ : Fin 1 => 0) i < 1)) ∧
    ((∀ v, nll_pmf (fun (_ : Fin 1) (_ : Fin 1) => (0 : ℝ)) (fun _ => 0)
          (fun _ => 1) Reduction.none 1 = some (.vec v) →
       nll_pmf (fun (_ : Fin 1) (_ : Fin 1) => (0 : ℝ)) (fun _ => 0)
          (fun _ => 1) Reduction.sum 1 = some (.scalar (∑ i, v i))
       ∧ nll_pmf (fun (_ : Fin 1) (_ : Fin 1) => (0 : ℝ)) (fun _ => 0)
          (fun _ => 1) Reduction.mean 1 = some (.scalar (meanR v)))
  ∧ (∀ v, nll_pmf_cr (fun (_ : Fin 1) (_ : Fin 1) (_ : Fin 1) => (0 : ℝ))
          (fun _ => 0) (fun _ => 1) Reduction.none 1 = some (.vec v) →
       nll_pmf_cr (fun (_ : Fin 1) (_ : Fin 1) (_ : Fin 1) => (0 : ℝ))
          (fun _ => 0) (fun _ => 1) Reduction.sum 1 = some (.scalar (∑ i, v i))
       ∧ nll_pmf_cr (fun (_ : Fin 1) (_ : Fin 1) (_ : Fin 1) => (0 : ℝ))
          (fun _ => 0) (fun _ => 1) Reduction.mean 1
          = some (.scalar (meanR v)))
  ∧ (∀ v, rank_loss_deephit_single (fun (_ : Fin 1) (_ : Fin 1) => (0 : ℝ))
          (fun _ => 0) (fun _ => 1) (fun _ _ => 0) 1 Reduction.none = .vec v →
       rank_loss_deephit_single (fun (_ : Fin 1) (_ : Fin 1) => (0 : ℝ))
          (fun _ => 0) (fun _ => 1) (fun _ _ => 0) 1 Reduction.sum
          = .scalar (∑ i, v i)
       ∧ rank_loss_deephit_single (fun (_ : Fin 1) (_ : Fin 1) => (0 : ℝ))
          (fun _ => 0) (fun _ => 1) (fun _ _ => 0) 1 Reduction.mean
          = .scalar (meanR v))
  ∧ (∀ v, rank_loss_deephit_cr (fun (_ : Fin 1) (_ : Fin 1) (_ : Fin 1) => (0 : ℝ))
          (fun _ => 0) (fun _ => 1) (fun _ _ => 0) 1 Reduction.none = .vec v →
       rank_loss_deephit_cr (fun (_ : Fin 1) (_ : Fin 1) (_ : Fin 1) => (0 : ℝ))
          (fun _ => 0) (fun _ => 1) (fun _ _ => 0) 1 Reduction.sum
          = .scalar (∑ i, v i)
       ∧ rank_loss_deephit_cr (fun (_ : Fin 1) (_ : Fin 1) (_ : Fin 1) => (0 : ℝ))
          (fun _ => 0) (fun _ => 1) (fun _ _ => 0) 1 Reduction.mean
          = .scalar (meanR v))) :=
  ⟨⟨by decide, fun _ => Nat.zero_lt_one⟩,
   C8_reduction_consistency (fun _ _ => (0 : ℝ)) (fun _ _ _ => (0 : ℝ))
     (fun _ => 0) (fun _ => 1) (fun _ => 1) (fun _ _ => 0) 1 1
     (by decide) (fun _ => Nat.zero_lt_one)⟩

/-- The default `epsilon=1e-7` of the loss functions, as used by the loss
modules. -/
def epsilonDefault : ℝ := 1 / 10 ^ 7

def smulR {N : ℕ} (c : α) : RTensor α N → RTensor α N
  | .vec v => .vec (fun i => c * v i)
  | .scalar x => .scalar (c * x)

/-- Elementwise / broadcast addition of reduced loss values. -/
def addR {N : ℕ} : RTensor α N → RTensor α N → RTensor α N
  | .vec v, .vec w => .vec (fun i => v i + w i)
  | .vec v, .scalar b => .vec (fun i => v i + b)
  | .scalar a, .vec w => .vec (fun i => a + w i)
  | .scalar a, .scalar b => .scalar (a + b)

/-- `NLLPMFLoss` module: binds a reduction mode. -/
structure NLLPMFLoss where
  reduction : Reduction

/-- `DeepHitSingleLoss` module: binds `alpha`, `sigma` and a reduction. -/
structure DeepHitSingleLoss where
  alpha : ℝ
  sigma : ℝ
  reduction : Reduction

/-- `DeepHitLoss` module: binds `alpha`, `sigma` and a reduction. -/
structure DeepHitLoss where
  alpha : ℝ
  sigma : ℝ
  reduction : Reduction

/-- `NLLPMFLoss.forward`; the second component is the module state after
the call (the body performs no attribute assignment). -/
def NLLPMFLoss.forward {n K : ℕ} (m : NLLPMFLoss) (phi : Fin n → Fin K → ℝ)
    (idx : Fin n → ℕ) (events : Fin n → ℝ) :
    Option (RTensor ℝ n) × NLLPMFLoss :=
  (nll_pmf phi idx events m.reduction epsilonDefault, m)

/-- `DeepHitSingleLoss.forward`:
`alpha * nll + (1 - alpha) * rank_loss`; the second component is the
module state after the call. -/
def DeepHitSingleLoss.forward {n K : ℕ} (m : DeepHitSingleLoss)
    (phi : Fin n → Fin K → ℝ) (idx : Fin n → ℕ) (events : Fin n → ℝ)
    (rank_mat : Fin n → Fin n → ℝ) :
    Option (RTensor ℝ n) × DeepHitSingleLoss :=
  ((nll_pmf phi idx events m.reduction epsilonDefault).map (fun nll =>
      addR (smulR m.alpha nll)
        (smulR (1 - m.alpha)
          (rank_loss_deephit_single phi idx events rank_mat m.sigma
            m.reduction))),
   m)

/-- `DeepHitLoss.forward`:
`alpha * nll_cr + (1 - alpha) * rank_loss_cr`; the second component is the
module state after the call. -/
def DeepHitLoss.forward {n R K : ℕ} (m : DeepHitLoss)
    (phi : Fin n → Fin R → Fin K → ℝ) (idx : Fin n → ℕ)
    (events : Fin n → ℕ) (rank_mat : Fin n → Fin n → ℝ) :
    Option (RTensor ℝ n) × DeepHitLoss :=
  ((nll_pmf_cr phi idx events m.reduction epsilonDefault).map (fun nll =>
      addR (smulR m.alpha nll)
        (smulR (1 - m.alpha)
          (rank_loss_deephit_cr phi idx events rank_mat m.sigma
            m.reduction))),
   m)

/-- C9: calling `forward` on any of the loss modules leaves the module's
state (its `reduction`, `alpha` and `sigma` fields) unchanged. -/
theorem C9_forward_preserves_state {n R K : ℕ}
    (m1 : NLLPMFLoss) (m2 : DeepHitSingleLoss) (m3 : DeepHitLoss)
    (phi1 : Fin n → Fin K → ℝ) (phiC : Fin n → Fin R → Fin K → ℝ)
    (idx : Fin n → ℕ) (evF : Fin n → ℝ) (evN : Fin n → ℕ)
    (rank_mat : Fin n → Fin n → ℝ) :
    (NLLPMFLoss.forward m1 phi1 idx evF).2 = m1
    ∧ (DeepHitSingleLoss.forward m2 phi1 idx evF rank_mat).2 = m2
    ∧ (DeepHitLoss.forward m3 phiC idx evN rank_mat).2 = m3
    ∧ (NLLPMFLoss.forward m1 phi1 idx evF).2.reduction = m1.reduction
    ∧ (DeepHitSingleLoss.forward m2 phi1 idx evF rank_mat).2.alpha = m2.alpha
    ∧ (DeepHitSingleLoss.forward m2 phi1 idx evF rank_mat).2.sigma = m2.sigma
    ∧ (DeepHitLoss.forward m3 phiC idx evN rank_mat).2.alpha = m3.alpha
    ∧ (DeepHitLoss.forward m3 phiC idx evN rank_mat).2.sigma = m3.sigma :=
  ⟨rfl, rfl, rfl, rfl, rfl, rfl, rfl, rfl⟩

/-- C10 witness: single sample, one risk, one duration bin, index `3`. -/
theorem C10_witness :
    (∃ i : Fin 1, 1 ≤ (fun _ : Fin 1 => 3) i) ∧
    ((nll_pmf_cr (fun (_ : Fin 1) (_ : Fin 1) (_ : Fin 1) => (0 : ℝ))
        (fun _ => 3) (fun _ => 1) Reduction.mean 1).isSome = true ∧
     (∀ (phi2 : Fin 1 → Fin 1 → ℝ) (events2 : Fin 1 → ℝ),
        nll_pmf phi2 (fun _ => 3) events2 Reduction.mean 1 = none)) :=
  ⟨⟨0, by decide⟩,
   C10_nll_pmf_cr_no_check (fun _ _ _ => (0 : ℝ)) (fun _ => 3) (fun _ => 1)
     Reduction.mean 1 ⟨0, by decide⟩⟩

end

/-- A cut-point scheme name (the code's `('equidistant', k)` style tuple
tags). -/
inductive CutScheme
  | equidistant
  | quantiles
deriving DecidableEq

/-- The polymorphic `cuts` constructor argument of `LabTransDiscreteSurv`:
an integer count, a `(scheme, count)` tuple, or an explicit array of cut
points. -/
inductive CutsSpec
  | intSpec (k : ℕ)
  | schemeSpec (scheme : CutScheme) (k : ℕ)
  | arraySpec (arr : List ℚ)

/-- The state of a `LabTransDiscreteSurv` instance.  `cuts`/`idu` are
`none` when the corresponding Python attribute has not been assigned
(accessing it raises `AttributeError`).  The index-mapper type `Idu` is
abstract: `IdxDiscUnknownC` lives in `pycox.preprocessing.discretization`,
which is not under `src/`. -/
structure LabTransDiscreteSurv (Idu : Type) where
  cutsSpec : CutsSpec
  predefinedCuts : Bool
  min_ : ℚ
  cuts : Option (List ℚ)
  idu : Option Idu

/-- `LabTransDiscreteSurv.__init__`: normalise an integer count to an
`('equidistant', k)` tuple and record whether the cuts were pre-supplied
(an explicit array). -/
def LabTransDiscreteSurv.init (Idu : Type) (cuts : CutsSpec) (min_ : ℚ) :
    LabTransDiscreteSurv Idu :=
  { cutsSpec :=
      match cuts with
      | .intSpec k => .schemeSpec .equidistant k
      | s => s
    predefinedCuts :=
      match cuts with
      | .arraySpec _ => true
      | _ => false
    min_ := min_
    cuts := none
    idu := none }

/-- `LabTransDiscreteSurv.fit`.  `make_cuts` and `IdxDiscUnknownC` (module
`pycox.preprocessing.discretization`, not under `src/`) are taken as
parameters; the returned boolean records whether the warning was emitted.
When cuts were pre-supplied the body warns and returns `self` unchanged —
in particular it does not assign `self.idu`. -/
def LabTransDiscreteSurv.fit {Idu : Type}
    (makeCuts : CutsSpec → List ℚ → List ℚ → ℚ → List ℚ)
    (mkIdu : List ℚ → Idu) (s : LabTransDiscreteSurv Idu)
    (durations events : List ℚ) : LabTransDiscreteSurv Idu × Bool :=
  if s.predefinedCuts then (s, true)
  else
    let c := makeCuts s.cutsSpec durations events s.min_;
    ({ s with cuts := some c, idu := some (mkIdu c) }, false)

/-- `LabTransDiscreteSurv.transform`: delegates to `self.idu.transform`;
`none` models the `AttributeError` raised when `self.idu` was never
assigned. -/
def LabTransDiscreteSurv.transform {Idu : Type}
    (iduTransform : Idu → List ℚ → List ℚ → List ℕ × List ℚ)
    (s : LabTransDiscreteSurv Idu) (durations events : List ℚ) :
    Option (List ℕ × List ℚ) :=
  s.idu.map (fun u => iduTransform u durations events)

/-- C6 (code bug): for an instance built from an explicit pre-supplied cuts
array, `fit` warns and returns the state entirely unchanged — so the
internal index mapper is never built and every subsequent `transform` call
fails, for any discretization semantics whatsoever. -/
theorem C6_predefined_cuts_transform_fails (Idu : Type)
    (makeCuts : CutsSpec → List ℚ → List ℚ → ℚ → List ℚ)
    (mkIdu : List ℚ → Idu)
    (iduTransform : Idu → List ℚ → List ℚ → List ℕ × List ℚ)
    (arr : List ℚ) (min_ : ℚ) (d e d2 e2 : List ℚ) :
    (LabTransDiscreteSurv.fit makeCuts mkIdu
        (LabTransDiscreteSurv.init Idu (CutsSpec.arraySpec arr) min_) d e).2
      = true
    ∧ (LabTransDiscreteSurv.fit makeCuts mkIdu
        (LabTransDiscreteSurv.init Idu (CutsSpec.arraySpec arr) min_) d e).1
      = LabTransDiscreteSurv.init Idu (CutsSpec.arraySpec arr) min_
    ∧ LabTransDiscreteSurv.transform iduTransform
        (LabTransDiscreteSurv.fit makeCuts mkIdu
          (LabTransDiscreteSurv.init Idu (CutsSpec.arraySpec arr) min_) d e).1
        d2 e2 = none :=
  ⟨rfl, rfl, rfl⟩

lemma zip_map_self {A B : Type} (f : A → B) (l : List A) :
    (l.map f).zip l = l.map (fun x => (f x, x)) := by
  induction l with
  | nil => rfl
  | cons a l ih => simp [ih]

noncomputable section

/-- `LabTransCoxTime` constructor flags: `log_duration` and the
`StandardScaler(True, with_mean, with_std)` options. -/
structure LabTransCoxTime where
  log_duration : Bool
  with_mean : Bool
  with_std : Bool

/-- `np.log1p` applied when `log_duration` is set, identity otherwise. -/
def l1p (b : Bool) (x : ℝ) : ℝ := if b then Real.log (1 + x) else x

/-- Empirical mean, as fitted by `StandardScaler` (an external interface;
the spec describes it as centring/scaling via a fitted mean/variance). -/
def listMean (xs : List ℝ) : ℝ := xs.sum / xs.length

/-- Empirical (population) variance, as fitted by `StandardScaler`. -/
def listVar (xs : List ℝ) : ℝ :=
  ((xs.map (fun x => (x - listMean xs) ^ 2)).sum) / xs.length

/-- `StandardScaler`'s scale: the standard deviation, with zeros replaced
by `1` (sklearn `_handle_zeros_in_scale`). -/
def scalerScale (xs : List ℝ) : ℝ :=
  if Real.sqrt (listVar xs) = 0 then 1 else Real.sqrt (listVar xs)

/-- The centring term actually subtracted (`0` when `with_mean=False`). -/
def coxCenter (lt : LabTransCoxTime) (xs : List ℝ) : ℝ :=
  if lt.with_mean then listMean xs else 0

/-- The divisor actually applied (`1` when `with_std=False`). -/
def coxDiv (lt : LabTransCoxTime) (xs : List ℝ) : ℝ :=
  if lt.with_std then scalerScale xs else 1

/-- The transform fitted by `LabTransCoxTime.fit_transform` applied to one
duration: optional `log1p`, then standardise with the statistics of the
(possibly `log1p`'d) training durations. -/
def coxTransformOne (lt : LabTransCoxTime) (durations : List ℝ) (x : ℝ) : ℝ :=
  (l1p lt.log_duration x - coxCenter lt (durations.map (l1p lt.log_duration)))
    / coxDiv lt (durations.map (l1p lt.log_duration))

/-- The scaled duration list returned by `fit_transform`. -/
def coxFitScaled (lt : LabTransCoxTime) (durations : List ℝ) : List ℝ :=
  durations.map (coxTransformOne lt durations)

/-- `self._inverse_duration_map`'s underlying pairs:
`zip(train_durations, scaled)` keyed by the scaled value. -/
def coxInvPairs (lt : LabTransCoxTime) (durations : List ℝ) :
    List (ℝ × ℝ) :=
  (coxFitScaled lt durations).zip durations

/-- Python `dict.get` on the comprehension `{scaled: orig for ...}`: the
last binding of a repeated key wins; `none` models the `None` returned for
a key never inserted. -/
def dictGet (ps : List (ℝ × ℝ)) (k : ℝ) : Option ℝ :=
  (ps.reverse.find? (fun p => decide (p.1 = k))).map (fun p => p.2)

/-- `LabTransCoxTime.map_scaled_to_orig` after fitting on `durations`. -/
def map_scaled_to_orig (lt : LabTransCoxTime) (durations : List ℝ)
    (t : ℝ) : Option ℝ :=
  dictGet (coxInvPairs lt durations) t

lemma coxDiv_ne_zero (lt : LabTransCoxTime) (xs : List ℝ) :
    coxDiv lt xs ≠ 0 := by
  unfold coxDiv scalerScale
  split
  · split
    · exact one_ne_zero
    · assumption
  · exact one_ne_zero

lemma coxTransformOne_inj (lt : LabTransCoxTime) (durations : List ℝ)
    (a b : ℝ) (ha : 0 ≤ a) (hb : 0 ≤ b)
    (h : coxTransformOne lt durations a = coxTransformOne lt durations b) :
    a = b := by
  unfold coxTransformOne at h
  have hs := coxDiv_ne_zero lt (durations.map (l1p lt.log_duration))
  have h3 : (l1p lt.log_duration a
        - coxCenter lt (durations.map (l1p lt.log_duration)))
        / coxDiv lt (durations.map (l1p lt.log_duration))
        * coxDiv lt (durations.map (l1p lt.log_duration))
      = (l1p lt.log_duration b
          - coxCenter lt (durations.map (l1p lt.log_duration)))
        / coxDiv lt (durations.map (l1p lt.log_duration))
        * coxDiv lt (durations.map (l1p lt.log_duration)) :=
    congrArg (fun z => z * coxDiv lt (durations.map (l1p lt.log_duration))) h
  rw [div_mul_cancel₀ _ hs, div_mul_cancel₀ _ hs] at h3
  have h2 : l1p lt.log_duration a = l1p lt.log_duration b := by
    linarith
  unfold l1p at h2
  by_cases hb' : lt.log_duration = true
  · rw [if_pos hb', if_pos hb'] at h2
    have h1a : (0 : ℝ) < 1 + a := by linarith
    have h1b : (0 : ℝ) < 1 + b := by linarith
    have h5 := congrArg Real.exp h2
    rw [Real.exp_log h1a, Real.exp_log h1b] at h5
    linarith
  · rw [if_neg hb', if_neg hb'] at h2
    exact h2

lemma dict_lookup_of_mem (f : ℝ → ℝ) (l : List ℝ)
    (hinj : ∀ a ∈ l, ∀ b ∈ l, f a = f b → a = b) (d : ℝ) (hd : d ∈ l) :
    ((l.map (fun x => (f x, x))).reverse.find?
        (fun p => decide (p.1 = f d))).map (fun p => p.2) = some d := by
  have hmem : ∀ p ∈ (l.map (fun x => (f x, x))).reverse,
      p.1 = f p.2 ∧ p.2 ∈ l := by
    intro p hp
    rw [List.mem_reverse, List.mem_map] at hp
    rcases hp with ⟨x, hx, hxp⟩
    rw [← hxp]
    exact ⟨rfl, hx⟩
  have hex : ∃ p ∈ (l.map (fun x => (f x, x))).reverse,
      (fun p : ℝ × ℝ => decide (p.1 = f d)) p = true := by
    refine ⟨(f d, d), ?_, by simp⟩
    rw [List.mem_reverse, List.mem_map]
    exact ⟨d, hd, rfl⟩
  have hsome : ((l.map (fun x => (f x, x))).reverse.find?
      (fun p => decide (p.1 = f d))).isSome := List.find?_isSome.mpr hex
  rcases Option.isSome_iff_exists.mp hsome with ⟨q, hq⟩
  have hqmem := List.mem_of_find?_eq_some hq
  have hqpred := List.find?_some hq
  have hq1 : q.1 = f d := of_decide_eq_true hqpred
  rcases hmem q hqmem with ⟨hk, hmem2⟩
  have hq2 : q.2 = d := hinj q.2 hmem2 d hd (by rw [← hk, hq1])
  rw [hq]
  simp [hq2]

lemma dict_lookup_of_not_mem (f : ℝ → ℝ) (l : List ℝ) (t : ℝ)
    (ht : t ∉ l.map f) :
    ((l.map (fun x => (f x, x))).reverse.find?
        (fun p => decide (p.1 = t))).map (fun p => p.2) = none := by
  have hnone : (l.map (fun x => (f x, x))).reverse.find?
      (fun p => decide (p.1 = t)) = none := by
    rw [List.find?_eq_none]
    intro p hp
    rw [List.mem_reverse, List.mem_map] at hp
    rcases hp with ⟨x, hx, hxp⟩
    intro hpred
    have h1 : p.1 = t := of_decide_eq_true (by exact hpred)
    rw [← hxp] at h1
    exact ht (h1 ▸ List.mem_map.mpr ⟨x, hx, rfl⟩)
  rw [hnone]
  rfl

/-- C7: applying the fitted transform of `LabTransCoxTime.fit_transform`
to any training duration and then `map_scaled_to_orig` recovers that
duration exactly, and `map_scaled_to_orig` on a transformed value never
produced from the training set is undefined (returns nothing). -/
theorem C7_coxtime_roundtrip (lt : LabTransCoxTime) (durations : List ℝ)
    (hpos : ∀ x ∈ durations, 0 ≤ x) :
    (∀ d ∈ durations,
      map_scaled_to_orig lt durations (coxTransformOne lt durations d)
        = some d)
    ∧ (∀ t, t ∉ coxFitScaled lt durations →
        map_scaled_to_orig lt durations t = none) := by
  have hpairs : coxInvPairs lt durations
      = durations.map (fun x => (coxTransformOne lt durations x, x)) := by
    unfold coxInvPairs coxFitScaled
    exact zip_map_self _ _
  have hinj : ∀ a ∈ durations, ∀ b ∈ durations,
      coxTransformOne lt durations a = coxTransformOne lt durations b
        → a = b :=
    fun a ha b hb h =>
      coxTransformOne_inj lt durations a b (hpos a ha) (hpos b hb) h
  constructor
  · intro d hd
    unfold map_scaled_to_orig dictGet
    rw [hpairs]
    exact dict_lookup_of_mem (coxTransformOne lt durations) durations
      hinj d hd
  · intro t ht
    unfold map_scaled_to_orig dictGet
    rw [hpairs]
    exact dict_lookup_of_not_mem (coxTransformOne lt durations) durations t
      (by
        unfold coxFitScaled at ht
        exact ht)

/-- C7 witness: the default transform fitted on the single training
duration `2`. -/
theorem C7_witness :
    (∀ x ∈ [(2 : ℝ)], 0 ≤ x) ∧
    ((∀ d ∈ [(2 : ℝ)],
      map_scaled_to_orig ⟨false, true, true⟩ [(2 : ℝ)]
          (coxTransformOne ⟨false, true, true⟩ [(2 : ℝ)] d) = some d)
    ∧ (∀ t, t ∉ coxFitScaled ⟨false, true, true⟩ [(2 : ℝ)] →
        map_scaled_to_orig ⟨false, true, true⟩ [(2 : ℝ)] t = none)) :=
  ⟨by norm_num,
   C7_coxtime_roundtrip ⟨false, true, true⟩ [(2 : ℝ)] (by norm_num)⟩

end

end CoxRec
